import Mathlib

/-!
Verification development for the `emoji-remover` tool (src/src/main.rs).

The program is modelled at the byte level: a text is a `List Nat` of UTF-8
bytes, matching Rust's `str`, whose `find`/slicing operations work on byte
offsets.  Pure Lean counterparts are given for the per-line comment
stripper inside `process_file` (lines 48-121 of main.rs) and for the file
selector `list_non_ignored_files` (lines 143-204).
-/

namespace ER

/-- Bytewise test that `p` occurs at the front of `l`; used to express
Rust's `str::find`/`str::contains` substring semantics. -/
def startsWithB : List Nat → List Nat → Bool
| [], _ => true
| _ :: _, [] => false
| a :: p, b :: l => a == b && startsWithB p l

/-- Byte offset of the first occurrence of `p` in `l`, as returned by
Rust's `str::find` (leftmost match, byte index). -/
def findB (p : List Nat) : List Nat → Option Nat
| [] => if startsWithB p [] then some 0 else none
| b :: r => if startsWithB p (b :: r) then some 0 else (findB p r).map (· + 1)

/-- Rust's `str::contains`: some occurrence of `p` exists in `l`. -/
def containsB (p l : List Nat) : Bool := (findB p l).isSome

/-- UTF-8 encoding of one Unicode code point `c` (the standard 1-4 byte
encoding used by Rust strings). -/
def encodeCp (c : Nat) : List Nat :=
  if c < 0x80 then [c]
  else if c < 0x800 then [0xC0 + c / 64, 0x80 + c % 64]
  else if c < 0x10000 then [0xE0 + c / 4096, 0x80 + c / 64 % 64, 0x80 + c % 64]
  else [0xF0 + c / 262144, 0x80 + c / 4096 % 64, 0x80 + c / 64 % 64, 0x80 + c % 64]

/-- UTF-8 byte sequence of a list of code points. -/
def utf8Encode (cs : List Nat) : List Nat := (cs.map encodeCp).flatten

/-- The UTF-8 bytes of a Lean string literal, used to transcribe the
string constants of main.rs. -/
def strBytes (s : String) : List Nat := utf8Encode (s.data.map Char.toNat)

/-- The marker token of main.rs: the two code points U+203C U+FE0F
(double exclamation mark plus variation selector), as UTF-8 bytes.  This
is the string literal passed to `contains` at lines 84, 100 and 110. -/
def markerBytes : List Nat := encodeCp 0x203C ++ encodeCp 0xFE0F

/-- UTF-8 encodings of every char accepted by Rust's
`char::is_whitespace` (the `White_Space` property), enumerated explicitly;
`str::trim_end`/`trim` strip these. -/
def wsEncs : List (List Nat) :=
  [encodeCp 0x09, encodeCp 0x0A, encodeCp 0x0B, encodeCp 0x0C, encodeCp 0x0D,
   encodeCp 0x20, encodeCp 0x85, encodeCp 0xA0, encodeCp 0x1680,
   encodeCp 0x2000, encodeCp 0x2001, encodeCp 0x2002, encodeCp 0x2003,
   encodeCp 0x2004, encodeCp 0x2005, encodeCp 0x2006, encodeCp 0x2007,
   encodeCp 0x2008, encodeCp 0x2009, encodeCp 0x200A, encodeCp 0x2028,
   encodeCp 0x2029, encodeCp 0x202F, encodeCp 0x205F, encodeCp 0x3000]

/-- Fuel-driven loop for `trimEnd`: while the bytes end with the encoding
of a whitespace char, drop that suffix.  On valid UTF-8 this agrees with
Rust's `str::trim_end`; `l.length` fuel always suffices since each step
removes at least one byte. -/
def trimEndGo : Nat → List Nat → List Nat
| 0, l => l
| fuel + 1, l =>
  match wsEncs.find? (fun w => w.isSuffixOf l) with
  | none => l
  | some w => trimEndGo fuel (l.take (l.length - w.length))

/-- Rust's `str::trim_end` on UTF-8 bytes. -/
def trimEnd (l : List Nat) : List Nat := trimEndGo l.length l

/-- Fuel-driven loop for `trimStart`, symmetric to `trimEndGo`. -/
def trimStartGo : Nat → List Nat → List Nat
| 0, l => l
| fuel + 1, l =>
  match wsEncs.find? (fun w => startsWithB w l) with
  | none => l
  | some w => trimStartGo fuel (l.drop w.length)

/-- Rust's `str::trim_start` on UTF-8 bytes. -/
def trimStart (l : List Nat) : List Nat := trimStartGo l.length l

/-- Rust's `str::trim` (both ends). -/
def trim (l : List Nat) : List Nat := trimStart (trimEnd l)

/-- Comment-opener selection of main.rs lines 51-75: from the file
extension, the byte offset of the winning comment opener on the line (if
any) together with the block closer to search for (if the winner is a
block opener).  Transcribed branch by branch from the `if`/`matches!`
chain of the source. -/
def openerFor (ext : String) (line : List Nat) : Option Nat × Option (List Nat) :=
  if ext = "html" then (findB (strBytes "<!--") line, some (strBytes "-->"))
  else if ext = "css" then (findB (strBytes "/*") line, some (strBytes "*/"))
  else if ext = "jsx" ∨ ext = "tsx" then
    match findB (strBytes "//") line, findB (strBytes "\x7b/*") line with
    | some s, some b => if s < b then (some s, none) else (some b, some (strBytes "*/\x7d"))
    | some s, none => (some s, none)
    | none, some b => (some b, some (strBytes "*/\x7d"))
    | none, none => (none, none)
  else if ext = "rs" ∨ ext = "js" ∨ ext = "ts" then (findB (strBytes "//") line, none)
  else (findB (strBytes "#") line, none)

/-- Per-line cleaning pass of `process_file` (main.rs lines 50-120): the
closure mapped over `content.lines()`.  Returns the possibly rewritten
line together with whether the `modified` flag was set for it. -/
def cleanLine (ext : String) (line : List Nat) : List Nat × Bool :=
  match openerFor ext line with
  | (none, _) => (line, false)
  | (some start, some ender) =>
    match findB ender (line.drop start) with
    | some endOff =>
      if containsB markerBytes ((line.take (start + endOff + ender.length)).drop start) then
        if (trim (line.drop (start + endOff + ender.length))).isEmpty then
          (trimEnd (line.take start), true)
        else
          (line.take start ++ line.drop (start + endOff + ender.length), true)
      else (line, false)
    | none =>
      if containsB markerBytes (line.drop start) then
        (trimEnd (line.take start), true)
      else (line, false)
  | (some start, none) =>
    if containsB markerBytes (line.drop start) then
      (trimEnd (line.take start), true)
    else (line, false)

/-- Strip one trailing carriage return, as Rust's `str::lines` does on
each `\n`-terminated piece. -/
def stripCr (l : List Nat) : List Nat :=
  if l.getLast? = some 13 then l.dropLast else l

/-- Split on newline bytes; always returns one more piece than there are
newline bytes. -/
def splitNl : List Nat → List (List Nat)
| [] => [[]]
| b :: r =>
  if b = 10 then [] :: splitNl r
  else
    match splitNl r with
    | [] => [[b]]
    | p :: ps => (b :: p) :: ps

/-- Rust's `str::lines` on UTF-8 bytes: split at `\n`, strip a `\r`
before each `\n`, and drop a final empty piece produced by a trailing
newline. -/
def rustLines (s : List Nat) : List (List Nat) :=
  if s = [] then []
  else
    match (splitNl s).reverse with
    | [] => []
    | last :: revInit => (revInit.reverse.map stripCr) ++ (if last = [] then [] else [last])

/-- `Vec::join("\n")`. -/
def joinNl : List (List Nat) → List Nat
| [] => []
| [l] => l
| l :: ls => l ++ 10 :: joinNl ls

/-- The pure core of `process_file` (main.rs lines 47-124): clean every
line, report the rejoined text and whether any line set the `modified`
flag. -/
def cleanContent (ext : String) (content : List Nat) : List Nat × Bool :=
  let results := (rustLines content).map (cleanLine ext)
  (joinNl (results.map Prod.fst), results.any Prod.snd)

/-- Write-back behaviour of `process_file` (main.rs lines 123-128): the
returned value is the content written to the file, or `none` when no
write call occurs.  The extension is taken as an argument (the source
derives it from the path via the std `Path` API, an external concern). -/
def processFile (ext : String) (content : List Nat) : Option (List Nat) :=
  if (cleanContent ext content).2 then some (cleanContent ext content).1 else none

/-- Rust's `str::is_char_boundary` as a byte test: index 0, the total
length, or a position holding a non-continuation byte.  Rust string
slicing panics exactly when this test (or the bounds check it embeds)
fails at an endpoint. -/
def isCharBoundaryB (l : List Nat) (i : Nat) : Bool :=
  i == 0 ||
    (if i < l.length then decide (l.getD i 0 < 0x80) || decide (0xC0 ≤ l.getD i 0)
     else i == l.length)

/-- Checked model of the Rust slice `&line[i..]`: `none` models a panic. -/
def dropCk (l : List Nat) (i : Nat) : Option (List Nat) :=
  if isCharBoundaryB l i then some (l.drop i) else none

/-- Checked model of the Rust slice `&line[..i]`: `none` models a panic. -/
def takeCk (l : List Nat) (i : Nat) : Option (List Nat) :=
  if isCharBoundaryB l i then some (l.take i) else none

/-- Checked model of the Rust slice `&line[i..j]`: `none` models a panic
(out of range, crossed endpoints, or an endpoint off a char boundary). -/
def spanCk (l : List Nat) (i j : Nat) : Option (List Nat) :=
  if i ≤ j ∧ isCharBoundaryB l i ∧ isCharBoundaryB l j then some ((l.take j).drop i)
  else none

/-- `cleanLine` with every slicing operation of the source routed through
the checked slice models; a `none` result marks a reachable panic. -/
def cleanLineChecked (ext : String) (line : List Nat) : Option (List Nat × Bool) :=
  match openerFor ext line with
  | (none, _) => some (line, false)
  | (some start, some ender) =>
    match dropCk line start with
    | none => none
    | some tl =>
      match findB ender tl with
      | some endOff =>
        match spanCk line start (start + endOff + ender.length) with
        | none => none
        | some commentContent =>
          if containsB markerBytes commentContent then
            match takeCk line start, dropCk line (start + endOff + ender.length) with
            | some pre, some suf =>
              some (if (trim suf).isEmpty then (trimEnd pre, true) else (pre ++ suf, true))
            | _, _ => none
          else some (line, false)
      | none =>
        if containsB markerBytes tl then
          match takeCk line start with
          | some pre => some (trimEnd pre, true)
          | none => none
        else some (line, false)
  | (some start, none) =>
    match dropCk line start with
    | none => none
    | some commentPart =>
      if containsB markerBytes commentPart then
        match takeCk line start with
        | some pre => some (trimEnd pre, true)
        | none => none
      else some (line, false)

/-- A Unicode scalar value (what a Rust `char` may hold). -/
def Scalar (c : Nat) : Prop := c < 0x110000 ∧ ¬(0xD800 ≤ c ∧ c ≤ 0xDFFF)

instance decScalar (c : Nat) : Decidable (Scalar c) :=
  inferInstanceAs (Decidable (c < 0x110000 ∧ ¬(0xD800 ≤ c ∧ c ≤ 0xDFFF)))

/-- A byte list is valid UTF-8 when it is the encoding of some sequence
of Unicode scalar values; `String::from_utf8` at main.rs line 42
guarantees this for every processed line. -/
def ValidUtf8 (l : List Nat) : Prop :=
  ∃ cs : List Nat, (∀ c ∈ cs, Scalar c) ∧ l = utf8Encode cs

/-- No continuation byte (`0x80-0xBF`) directly follows an ASCII byte;
this holds in valid UTF-8 and is what makes the position after an ASCII
closer a char boundary. -/
def noContAfterAscii : List Nat → Prop
| a :: b :: r => (a < 0x80 → b < 0x80 ∨ 0xC0 ≤ b) ∧ noContAfterAscii (b :: r)
| _ => True

/-- One walked directory entry handed to the selection loop of
`list_non_ignored_files` (main.rs lines 159-201).  `path` is an opaque
identifier for the absolute path pushed into the output; `rel` is the
`strip_prefix` result (`none` models its error branch, skipped at line
166); `relUtf8` records whether `to_str()` succeeds (line 176 skips
non-UTF-8 paths). -/
structure Entry where
  path : Nat
  isDir : Bool
  rel : Option (List Char)
  relUtf8 : Bool
deriving DecidableEq

/-- The `replace('\\', "/")` normalization of main.rs line 175. -/
def normalizeSlashes (r : List Char) : List Char :=
  r.map (fun c => if c = '\\' then '/' else c)

/-- Body of the selection loop of `list_non_ignored_files` for one entry
(main.rs lines 161-201): `ok none` models `continue`, `ok (some p)`
models pushing the path, `error` models the `?` on `is_path_ignored`.
Glob matching is the external `glob` crate, so compiled patterns are
modelled as predicates on the normalized relative path. -/
def processEntry (ign : List Char → Except Unit Bool)
    (includePats excludePats : List (List Char → Bool)) (ent : Entry) :
    Except Unit (Option Nat) :=
  if ent.isDir then Except.ok none
  else
    match ent.rel with
    | none => Except.ok none
    | some rel =>
      if rel.isEmpty then Except.ok none
      else
        match ign rel with
        | Except.error e => Except.error e
        | Except.ok true => Except.ok none
        | Except.ok false =>
          if ent.relUtf8 = false then Except.ok none
          else
            if excludePats.any (fun pat => pat (normalizeSlashes rel)) then Except.ok none
            else if includePats.isEmpty then Except.ok (some ent.path)
            else if includePats.any (fun pat => pat (normalizeSlashes rel)) then
              Except.ok (some ent.path)
            else Except.ok none

/-- The selection loop of `list_non_ignored_files` (main.rs lines
159-203) over the walker's entry stream: an `error` entry models the `?`
on `entry_result` aborting the whole listing; otherwise entries are
processed in traversal order and selected paths are accumulated in
order. -/
def listNonIgnoredFiles (ign : List Char → Except Unit Bool)
    (includePats excludePats : List (List Char → Bool)) :
    List (Except Unit Entry) → Except Unit (List Nat)
| [] => Except.ok []
| Except.error e :: _ => Except.error e
| Except.ok ent :: rest =>
  match processEntry ign includePats excludePats ent with
  | Except.error e => Except.error e
  | Except.ok none => listNonIgnoredFiles ign includePats excludePats rest
  | Except.ok (some p) =>
    match listNonIgnoredFiles ign includePats excludePats rest with
    | Except.error e => Except.error e
    | Except.ok out => Except.ok (p :: out)

/-- A regular, non-ignored, non-excluded candidate file, stated from the
spec's selection conditions (spec 4.1 steps 1-4); used to compare the
code's selection against the spec's description. -/
def eligible (ign : List Char → Except Unit Bool)
    (excludePats : List (List Char → Bool)) (ent : Entry) : Prop :=
  ent.isDir = false ∧
    ∃ r, ent.rel = some r ∧ r ≠ [] ∧ ign r = Except.ok false ∧ ent.relUtf8 = true ∧
      ∀ pat ∈ excludePats, pat (normalizeSlashes r) = false

/-- `a` is an initial segment of `b`. -/
def FrontOf (a b : List Nat) : Prop := ∃ t, b = a ++ t

theorem frontOf_refl (a : List Nat) : FrontOf a a := ⟨[], by simp⟩

theorem frontOf_trans {a b c : List Nat} (h1 : FrontOf a b) (h2 : FrontOf b c) :
    FrontOf a c := by
  obtain ⟨t1, rfl⟩ := h1
  obtain ⟨t2, rfl⟩ := h2
  exact ⟨t1 ++ t2, by simp⟩

theorem frontOf_take (n : Nat) (l : List Nat) : FrontOf (l.take n) l :=
  ⟨l.drop n, (List.take_append_drop n l).symm⟩

theorem frontOf_length {a b : List Nat} (h : FrontOf a b) : a.length ≤ b.length := by
  obtain ⟨t, rfl⟩ := h
  simp

theorem frontOf_drop {a b : List Nat} (n : Nat) (h : FrontOf a b) :
    FrontOf (a.drop n) (b.drop n) := by
  obtain ⟨t, rfl⟩ := h
  exact ⟨t.drop (n - a.length), List.drop_append_eq_append_drop⟩

theorem startsWithB_iff {p l : List Nat} : startsWithB p l = true ↔ FrontOf p l := by
  induction p generalizing l with
  | nil => simp [startsWithB, FrontOf]
  | cons a p ih =>
    cases l with
    | nil =>
      simp only [startsWithB, FrontOf]
      constructor
      · intro h; cases h
      · rintro ⟨t, ht⟩; cases ht
    | cons b l =>
      simp only [startsWithB, Bool.and_eq_true, beq_iff_eq, ih, FrontOf]
      constructor
      · rintro ⟨rfl, t, rfl⟩; exact ⟨t, rfl⟩
      · rintro ⟨t, ht⟩
        injection ht with h1 h2
        exact ⟨h1.symm, t, h2⟩

theorem findB_sw {p l : List Nat} {i : Nat} (h : findB p l = some i) :
    startsWithB p (l.drop i) = true := by
  induction l generalizing i with
  | nil =>
    by_cases hp : startsWithB p [] = true
    · simp [findB, hp] at h; simp [← h, hp]
    · simp [findB, Bool.of_not_eq_true hp] at h
  | cons b r ih =>
    by_cases hp : startsWithB p (b :: r) = true
    · simp [findB, hp] at h; simp [← h, hp]
    · have hpf : startsWithB p (b :: r) = false := Bool.of_not_eq_true hp
      cases hr : findB p r with
      | none => simp [findB, hpf, hr] at h
      | some j =>
        simp [findB, hpf, hr] at h
        obtain rfl : i = j + 1 := by omega
        simpa using ih hr

theorem findB_min {p l : List Nat} {i : Nat} (h : findB p l = some i) :
    ∀ j, j < i → startsWithB p (l.drop j) = false := by
  induction l generalizing i with
  | nil =>
    by_cases hp : startsWithB p [] = true
    · simp [findB, hp] at h; omega
    · simp [findB, Bool.of_not_eq_true hp] at h
  | cons b r ih =>
    by_cases hp : startsWithB p (b :: r) = true
    · simp [findB, hp] at h; omega
    · have hpf : startsWithB p (b :: r) = false := Bool.of_not_eq_true hp
      cases hr : findB p r with
      | none => simp [findB, hpf, hr] at h
      | some i' =>
        simp [findB, hpf, hr] at h
        obtain rfl : i = i' + 1 := by omega
        intro j hj
        cases j with
        | zero => simpa using hpf
        | succ j' => simpa using ih hr j' (by omega)

theorem findB_isEmpty_ne {p l : List Nat} {i : Nat} (hp : p ≠ []) (h : findB p l = some i) :
    i + p.length ≤ l.length := by
  have hsw := startsWithB_iff.mp (findB_sw h)
  have hlen := frontOf_length hsw
  have hplen : 1 ≤ p.length := by cases p with | nil => exact absurd rfl hp | cons a t => simp
  have : (l.drop i).length = l.length - i := List.length_drop _ _
  omega

theorem trimEndGo_front (fuel : Nat) (l : List Nat) : FrontOf (trimEndGo fuel l) l := by
  induction fuel generalizing l with
  | zero => exact frontOf_refl l
  | succ fuel ih =>
    unfold trimEndGo
    cases hf : wsEncs.find? (fun w => w.isSuffixOf l) with
    | none => exact frontOf_refl l
    | some w => exact frontOf_trans (ih _) (frontOf_take _ l)

theorem trimEnd_front (l : List Nat) : FrontOf (trimEnd l) l := trimEndGo_front _ l

theorem trimEnd_length (l : List Nat) : (trimEnd l).length ≤ l.length :=
  frontOf_length (trimEnd_front l)

theorem findB_none_of_front {p l l' : List Nat} {s : Nat} (hp : p ≠ [])
    (h : findB p l = some s) (hfr : FrontOf l' (l.take s)) : findB p l' = none := by
  cases hfind : findB p l' with
  | none => rfl
  | some t =>
    exfalso
    have hsw : FrontOf p (l'.drop t) := startsWithB_iff.mp (findB_sw hfind)
    have hplen : 1 ≤ p.length := by cases p with | nil => exact absurd rfl hp | cons a r => simp
    have hlt : t < l'.length := by
      have := frontOf_length hsw
      have : (l'.drop t).length = l'.length - t := List.length_drop _ _
      omega
    have hl' : l'.length ≤ s := by
      have := frontOf_length hfr
      have : (l.take s).length = min s l.length := List.length_take _ _
      omega
    have hfr2 : FrontOf (l'.drop t) (l.drop t) :=
      frontOf_trans (frontOf_drop t hfr) (frontOf_drop t (frontOf_take s l))
    have : startsWithB p (l.drop t) = true :=
      startsWithB_iff.mpr (frontOf_trans hsw hfr2)
    have hmin := findB_min h t (by omega)
    rw [this] at hmin
    cases hmin

theorem ne_of_length_lt {a b : List Nat} (h : a.length < b.length) : a ≠ b := by
  intro he
  rw [he] at h
  omega

theorem cleanLine_noneCase {ext : String} {line : List Nat} {eopt : Option (List Nat)}
    (h : openerFor ext line = (none, eopt)) : cleanLine ext line = (line, false) := by
  unfold cleanLine
  rw [h]

theorem cleanLine_lineCase {ext : String} {line : List Nat} {s : Nat}
    (h : openerFor ext line = (some s, none)) :
    cleanLine ext line =
      if containsB markerBytes (line.drop s) then (trimEnd (line.take s), true)
      else (line, false) := by
  unfold cleanLine
  rw [h]

theorem cleanLine_blockCase {ext : String} {line : List Nat} {s : Nat} {en : List Nat}
    (h : openerFor ext line = (some s, some en)) :
    cleanLine ext line =
      match findB en (line.drop s) with
      | some endOff =>
        if containsB markerBytes ((line.take (s + endOff + en.length)).drop s) then
          if (trim (line.drop (s + endOff + en.length))).isEmpty then
            (trimEnd (line.take s), true)
          else
            (line.take s ++ line.drop (s + endOff + en.length), true)
        else (line, false)
      | none =>
        if containsB markerBytes (line.drop s) then (trimEnd (line.take s), true)
        else (line, false) := by
  unfold cleanLine
  rw [h]

theorem openerFor_rs (line : List Nat) :
    openerFor "rs" line = (findB (strBytes "//") line, none) := rfl

theorem openerFor_js (line : List Nat) :
    openerFor "js" line = (findB (strBytes "//") line, none) := rfl

theorem openerFor_ts (line : List Nat) :
    openerFor "ts" line = (findB (strBytes "//") line, none) := rfl

theorem openerFor_html (line : List Nat) :
    openerFor "html" line = (findB (strBytes "<!--") line, some (strBytes "-->")) := rfl

theorem openerFor_css (line : List Nat) :
    openerFor "css" line = (findB (strBytes "/*") line, some (strBytes "*/")) := rfl

theorem openerFor_fallback {ext : String} (h1 : ext ≠ "html") (h2 : ext ≠ "css")
    (h3 : ext ≠ "jsx") (h4 : ext ≠ "tsx") (h5 : ext ≠ "rs") (h6 : ext ≠ "js")
    (h7 : ext ≠ "ts") (l : List Nat) :
    openerFor ext l = (findB (strBytes "#") l, none) := by
  unfold openerFor
  rw [if_neg h1, if_neg h2, if_neg (by simp [h3, h4]), if_neg (by simp [h5, h6, h7])]

theorem openerFor_dual {ext : String} (hx : ext = "jsx" ∨ ext = "tsx") (l : List Nat) :
    openerFor ext l =
      match findB (strBytes "//") l, findB (strBytes "\x7b/*") l with
      | some s, some b =>
        if s < b then (some s, none) else (some b, some (strBytes "*/\x7d"))
      | some s, none => (some s, none)
      | none, some b => (some b, some (strBytes "*/\x7d"))
      | none, none => (none, none) := by
  rcases hx with rfl | rfl <;> rfl

theorem openerFor_some {ext : String} {line : List Nat} {s : Nat} {eopt : Option (List Nat)}
    (h : openerFor ext line = (some s, eopt)) :
    ∃ p, p ≠ [] ∧ p.getD 0 0 < 0x80 ∧ startsWithB p (line.drop s) = true ∧
      ∀ en, eopt = some en → en ≠ [] ∧ en.getD (en.length - 1) 0 < 0x80 := by
  unfold openerFor at h
  by_cases h1 : ext = "html"
  · rw [if_pos h1] at h
    injection h with hc he
    refine ⟨strBytes "<!--", by decide, by decide, findB_sw hc, ?_⟩
    intro en hen
    rw [← he] at hen
    injection hen with hen
    rw [← hen]
    exact ⟨by decide, by decide⟩
  · rw [if_neg h1] at h
    by_cases h2 : ext = "css"
    · rw [if_pos h2] at h
      injection h with hc he
      refine ⟨strBytes "/*", by decide, by decide, findB_sw hc, ?_⟩
      intro en hen
      rw [← he] at hen
      injection hen with hen
      rw [← hen]
      exact ⟨by decide, by decide⟩
    · rw [if_neg h2] at h
      by_cases h3 : ext = "jsx" ∨ ext = "tsx"
      · rw [if_pos h3] at h
        cases hs : findB (strBytes "//") line with
        | some s' =>
          cases hb : findB (strBytes "\x7b/*") line with
          | some b' =>
            rw [hs, hb] at h
            dsimp only at h
            by_cases hlt : s' < b'
            · rw [if_pos hlt] at h
              injection h with hc he
              injection hc with hc
              refine ⟨strBytes "//", by decide, by decide, by rw [hc] at hs; exact findB_sw hs, ?_⟩
              intro en hen
              rw [← he] at hen
              cases hen
            · rw [if_neg hlt] at h
              injection h with hc he
              injection hc with hc
              refine ⟨strBytes "\x7b/*", by decide, by decide,
                by rw [hc] at hb; exact findB_sw hb, ?_⟩
              intro en hen
              rw [← he] at hen
              injection hen with hen
              rw [← hen]
              exact ⟨by decide, by decide⟩
          | none =>
            rw [hs, hb] at h
            injection h with hc he
            injection hc with hc
            refine ⟨strBytes "//", by decide, by decide,
              by rw [hc] at hs; exact findB_sw hs, ?_⟩
            intro en hen
            rw [← he] at hen
            cases hen
        | none =>
          cases hb : findB (strBytes "\x7b/*") line with
          | some b' =>
            rw [hs, hb] at h
            injection h with hc he
            injection hc with hc
            refine ⟨strBytes "\x7b/*", by decide, by decide,
              by rw [hc] at hb; exact findB_sw hb, ?_⟩
            intro en hen
            rw [← he] at hen
            injection hen with hen
            rw [← hen]
            exact ⟨by decide, by decide⟩
          | none =>
            rw [hs, hb] at h
            injection h with hc he
            cases hc
      · rw [if_neg h3] at h
        by_cases h4 : ext = "rs" ∨ ext = "js" ∨ ext = "ts"
        · rw [if_pos h4] at h
          injection h with hc he
          refine ⟨strBytes "//", by decide, by decide, findB_sw hc, ?_⟩
          intro en hen
          rw [← he] at hen
          cases hen
        · rw [if_neg h4] at h
          injection h with hc he
          refine ⟨strBytes "#", by decide, by decide, findB_sw hc, ?_⟩
          intro en hen
          rw [← he] at hen
          cases hen

theorem cleanLine_of_lineTok {ext : String} {tok : List Nat}
    (hop : ∀ l, openerFor ext l = (findB tok l, none)) (line : List Nat) :
    cleanLine ext line =
      match findB tok line with
      | none => (line, false)
      | some s =>
        if containsB markerBytes (line.drop s) then (trimEnd (line.take s), true)
        else (line, false) := by
  cases hf : findB tok line with
  | none =>
    rw [cleanLine_noneCase (by rw [hop line, hf])]
  | some s =>
    rw [cleanLine_lineCase (by rw [hop line, hf])]

theorem lineTok_clean_idem {ext : String} {tok : List Nat} (htok : tok ≠ [])
    (hop : ∀ l, openerFor ext l = (findB tok l, none)) (line : List Nat) :
    cleanLine ext ((cleanLine ext line).1) = ((cleanLine ext line).1, false) := by
  cases hf : findB tok line with
  | none =>
    have h1 : cleanLine ext line = (line, false) := by
      rw [cleanLine_of_lineTok hop line, hf]
    rw [h1]
    exact h1
  | some s =>
    by_cases hm : containsB markerBytes (line.drop s) = true
    · have h1 : cleanLine ext line = (trimEnd (line.take s), true) := by
        rw [cleanLine_of_lineTok hop line, hf]
        simp [hm]
      have hnone : findB tok (trimEnd (line.take s)) = none :=
        findB_none_of_front htok hf (trimEnd_front _)
      rw [h1, cleanLine_of_lineTok hop _, hnone]
    · have h1 : cleanLine ext line = (line, false) := by
        rw [cleanLine_of_lineTok hop line, hf]
        simp [hm]
      rw [h1]
      exact h1

theorem cleanLine_flag (ext : String) (line : List Nat) :
    (cleanLine ext line).2 = true ↔ (cleanLine ext line).1 ≠ line := by
  rcases hop : openerFor ext line with ⟨copt, eopt⟩
  cases copt with
  | none =>
    rw [cleanLine_noneCase hop]
    simp
  | some s =>
    obtain ⟨p, hpne, _, hsw, hinfo⟩ := openerFor_some hop
    have hplen : 1 ≤ p.length := by
      cases p with
      | nil => exact absurd rfl hpne
      | cons a r => simp
    have hslen : s < line.length := by
      have h1 := frontOf_length (startsWithB_iff.mp hsw)
      have h2 := List.length_drop s line
      omega
    have htake : (line.take s).length = s := by
      have := List.length_take s line
      omega
    have htrimne : trimEnd (line.take s) ≠ line := by
      apply ne_of_length_lt
      have := trimEnd_length (line.take s)
      omega
    cases eopt with
    | none =>
      rw [cleanLine_lineCase hop]
      by_cases hm : containsB markerBytes (line.drop s) = true
      · simp [hm, htrimne]
      · simp [hm]
    | some en =>
      obtain ⟨hene, _⟩ := hinfo en rfl
      have henlen : 1 ≤ en.length := by
        cases en with
        | nil => exact absurd rfl hene
        | cons a r => simp
      rw [cleanLine_blockCase hop]
      cases hfe : findB en (line.drop s) with
      | none =>
        by_cases hm : containsB markerBytes (line.drop s) = true
        · simp [hm, htrimne]
        · simp [hm]
      | some off =>
        have he_le : s + off + en.length ≤ line.length := by
          have h2 := findB_isEmpty_ne hene hfe
          have := List.length_drop s line
          omega
        by_cases hm :
            containsB markerBytes ((line.take (s + off + en.length)).drop s) = true
        · by_cases hw : (trim (line.drop (s + off + en.length))).isEmpty = true
          · simp [hm, hw, htrimne]
          · have hsplice : line.take s ++ line.drop (s + off + en.length) ≠ line := by
              apply ne_of_length_lt
              have := List.length_drop (s + off + en.length) line
              simp only [List.length_append]
              omega
            simp [hm, hw, hsplice]
        · simp [hm]

theorem getD_drop : ∀ (l : List Nat) (m k : Nat), (l.drop m).getD k 0 = l.getD (m + k) 0
| _, 0, _ => by simp
| [], _ + 1, _ => by simp
| a :: r, m + 1, k => by
  simp only [List.drop_succ_cons]
  rw [getD_drop r m k]
  have h : m + 1 + k = (m + k) + 1 := by omega
  rw [h, List.getD_cons_succ]

theorem frontOf_getD {p l : List Nat} (h : FrontOf p l) {k : Nat} (hk : k < p.length) :
    l.getD k 0 = p.getD k 0 := by
  obtain ⟨t, rfl⟩ := h
  exact List.getD_append _ _ _ _ hk

theorem sw_getD {p l : List Nat} {m : Nat} (h : startsWithB p (l.drop m) = true)
    {k : Nat} (hk : k < p.length) : l.getD (m + k) 0 = p.getD k 0 := by
  rw [← getD_drop]
  exact frontOf_getD (startsWithB_iff.mp h) hk

theorem isCharBoundaryB_of_byte {l : List Nat} {i : Nat} (h : i < l.length)
    (hb : l.getD i 0 < 0x80 ∨ 0xC0 ≤ l.getD i 0) : isCharBoundaryB l i = true := by
  unfold isCharBoundaryB
  rw [if_pos h]
  simp only [Bool.or_eq_true, beq_iff_eq, decide_eq_true_eq]
  rcases hb with hb | hb
  · exact Or.inr (Or.inl hb)
  · exact Or.inr (Or.inr hb)

theorem isCharBoundaryB_len (l : List Nat) : isCharBoundaryB l l.length = true := by
  unfold isCharBoundaryB
  rw [if_neg (by omega)]
  simp

theorem noCont_getD : ∀ {l : List Nat}, noContAfterAscii l → ∀ i, i + 1 < l.length →
    l.getD i 0 < 0x80 → (l.getD (i + 1) 0 < 0x80 ∨ 0xC0 ≤ l.getD (i + 1) 0)
| [], _, i, hi, _ => by simp at hi
| [_], _, i, hi, _ => by simp at hi
| a :: b :: r, h, 0, _, ha => by simpa using h.1 (by simpa using ha)
| a :: b :: r, h, i + 1, hi, ha => by
  have hr := noCont_getD h.2 i (by simp at hi ⊢; omega)
    (by simpa [List.getD_cons_succ] using ha)
  simpa [List.getD_cons_succ] using hr

theorem encodeCp_ne_nil (c : Nat) : encodeCp c ≠ [] := by
  unfold encodeCp
  split_ifs <;> simp

theorem encodeCp_head (c : Nat) :
    (encodeCp c).getD 0 0 < 0x80 ∨ 0xC0 ≤ (encodeCp c).getD 0 0 := by
  unfold encodeCp
  split_ifs with h1 h2 h3
  · left; simp only [List.getD_cons_zero]; exact h1
  · right; simp only [List.getD_cons_zero]; omega
  · right; simp only [List.getD_cons_zero]; omega
  · right; simp only [List.getD_cons_zero]; omega

theorem noCont_encodeCp (c : Nat) : noContAfterAscii (encodeCp c) := by
  unfold encodeCp
  split_ifs with h1 h2 h3
  · trivial
  · exact ⟨fun h => by omega, trivial⟩
  · exact ⟨fun h => by omega, fun h => by omega, trivial⟩
  · exact ⟨fun h => by omega, fun h => by omega, fun h => by omega, trivial⟩

theorem noCont_append : ∀ (xs : List Nat), noContAfterAscii xs → ∀ {ys : List Nat},
    noContAfterAscii ys → (ys = [] ∨ (ys.getD 0 0 < 0x80 ∨ 0xC0 ≤ ys.getD 0 0)) →
    noContAfterAscii (xs ++ ys)
| [], _, ys, hy, _ => by simpa using hy
| [a], _, ys, hy, hh => by
  cases ys with
  | nil => trivial
  | cons y t =>
    refine ⟨fun _ => ?_, hy⟩
    rcases hh with h | h
    · cases h
    · simpa using h
| a :: b :: r, hx, ys, hy, hh => ⟨hx.1, noCont_append (b :: r) hx.2 hy hh⟩

theorem noCont_utf8Encode (cs : List Nat) : noContAfterAscii (utf8Encode cs) := by
  induction cs with
  | nil => trivial
  | cons c cs ih =>
    show noContAfterAscii (encodeCp c ++ utf8Encode cs)
    apply noCont_append _ (noCont_encodeCp c) ih
    cases cs with
    | nil => left; rfl
    | cons c' cs' =>
      right
      have hne := encodeCp_ne_nil c'
      have hget : (utf8Encode (c' :: cs')).getD 0 0 = (encodeCp c').getD 0 0 := by
        show (encodeCp c' ++ (cs'.map encodeCp).flatten).getD 0 0 = _
        cases hE : encodeCp c' with
        | nil => exact absurd hE hne
        | cons x xs => simp
      rw [hget]
      exact encodeCp_head c'

theorem validUtf8_noCont {l : List Nat} (h : ValidUtf8 l) : noContAfterAscii l := by
  obtain ⟨cs, _, rfl⟩ := h
  exact noCont_utf8Encode cs

theorem boundary_of_sw {p l : List Nat} {i : Nat} (hp : p ≠ []) (hh : p.getD 0 0 < 0x80)
    (hsw : startsWithB p (l.drop i) = true) : isCharBoundaryB l i = true := by
  have hplen : 1 ≤ p.length := by
    cases p with
    | nil => exact absurd rfl hp
    | cons a r => simp
  have hlen := frontOf_length (startsWithB_iff.mp hsw)
  have hdl := List.length_drop i l
  have hi : i < l.length := by omega
  have hg : l.getD i 0 = p.getD 0 0 := by
    have := sw_getD hsw (k := 0) (by omega)
    simpa using this
  exact isCharBoundaryB_of_byte hi (by rw [hg]; left; exact hh)

theorem boundary_after_closer {l en : List Nat} {m : Nat} (hnc : noContAfterAscii l)
    (hen : en ≠ []) (hlast : en.getD (en.length - 1) 0 < 0x80)
    (hsw : startsWithB en (l.drop m) = true) :
    isCharBoundaryB l (m + en.length) = true := by
  have henlen : 1 ≤ en.length := by
    cases en with
    | nil => exact absurd rfl hen
    | cons a r => simp
  have hle : m + en.length ≤ l.length := by
    have := frontOf_length (startsWithB_iff.mp hsw)
    have := List.length_drop m l
    omega
  by_cases he : m + en.length = l.length
  · rw [he]
    exact isCharBoundaryB_len l
  · have hlt : m + en.length < l.length := by omega
    have hprev : l.getD (m + en.length - 1) 0 < 0x80 := by
      have hgd := sw_getD hsw (k := en.length - 1) (by omega)
      have harith : m + (en.length - 1) = m + en.length - 1 := by omega
      rw [harith] at hgd
      rw [hgd]
      exact hlast
    have hnext := noCont_getD hnc (m + en.length - 1) (by omega) hprev
    have harith2 : m + en.length - 1 + 1 = m + en.length := by omega
    rw [harith2] at hnext
    exact isCharBoundaryB_of_byte hlt hnext

theorem dropCk_some {l : List Nat} {i : Nat} (h : isCharBoundaryB l i = true) :
    dropCk l i = some (l.drop i) := by
  rw [dropCk, if_pos h]

theorem takeCk_some {l : List Nat} {i : Nat} (h : isCharBoundaryB l i = true) :
    takeCk l i = some (l.take i) := by
  rw [takeCk, if_pos h]

theorem spanCk_some {l : List Nat} {i j : Nat} (hij : i ≤ j)
    (hi : isCharBoundaryB l i = true) (hj : isCharBoundaryB l j = true) :
    spanCk l i j = some ((l.take j).drop i) := by
  rw [spanCk, if_pos ⟨hij, hi, hj⟩]

theorem processEntry_some_facts {ign : List Char → Except Unit Bool}
    {inc exc : List (List Char → Bool)} {ent : Entry} {p : Nat}
    (h : processEntry ign inc exc ent = Except.ok (some p)) :
    ent.path = p ∧ ent.isDir = false ∧ ∃ r, ent.rel = some r ∧ r ≠ [] ∧
      ign r = Except.ok false ∧ ent.relUtf8 = true ∧
      exc.any (fun pat => pat (normalizeSlashes r)) = false ∧
      (inc.isEmpty = true ∨ inc.any (fun pat => pat (normalizeSlashes r)) = true) := by
  unfold processEntry at h
  by_cases hd : ent.isDir
  · rw [if_pos hd] at h
    simp at h
  · rw [if_neg hd] at h
    cases hrel : ent.rel with
    | none =>
      rw [hrel] at h
      simp at h
    | some r =>
      rw [hrel] at h
      dsimp only at h
      by_cases hre : r.isEmpty = true
      · rw [if_pos hre] at h
        simp at h
      · rw [if_neg hre] at h
        cases hig : ign r with
        | error e =>
          rw [hig] at h
          exact Except.noConfusion h
        | ok b =>
          rw [hig] at h
          cases b with
          | true => simp at h
          | false =>
            dsimp only at h
            by_cases hutf : ent.relUtf8 = false
            · rw [if_pos hutf] at h
              simp at h
            · rw [if_neg hutf] at h
              by_cases hexc : exc.any (fun pat => pat (normalizeSlashes r)) = true
              · rw [if_pos hexc] at h
                simp at h
              · rw [if_neg hexc] at h
                have hd' : ent.isDir = false := by simpa using hd
                have hre' : r ≠ [] := by simpa using hre
                have hutf' : ent.relUtf8 = true := by simpa using hutf
                have hexc' : exc.any (fun pat => pat (normalizeSlashes r)) = false := by
                  simpa using hexc
                by_cases hie : inc.isEmpty = true
                · rw [if_pos hie] at h
                  have hp : ent.path = p := by simpa using h
                  exact ⟨hp, hd', r, rfl, hre', hig, hutf', hexc', Or.inl hie⟩
                · rw [if_neg hie] at h
                  by_cases hia : inc.any (fun pat => pat (normalizeSlashes r)) = true
                  · rw [if_pos hia] at h
                    have hp : ent.path = p := by simpa using h
                    exact ⟨hp, hd', r, rfl, hre', hig, hutf', hexc', Or.inr hia⟩
                  · rw [if_neg hia] at h
                    simp at h

theorem processEntry_mk {ign : List Char → Except Unit Bool}
    {inc exc : List (List Char → Bool)} {ent : Entry} {r : List Char}
    (hd : ent.isDir = false) (hrel : ent.rel = some r) (hne : r ≠ [])
    (hig : ign r = Except.ok false) (hutf : ent.relUtf8 = true)
    (hexc : exc.any (fun pat => pat (normalizeSlashes r)) = false)
    (hinc : inc.isEmpty = true ∨ inc.any (fun pat => pat (normalizeSlashes r)) = true) :
    processEntry ign inc exc ent = Except.ok (some ent.path) := by
  unfold processEntry
  rw [if_neg (by simp [hd]), hrel]
  dsimp only
  rw [if_neg (by simp [hne]), hig]
  dsimp only
  rw [if_neg (by simp [hutf]), if_neg (by simp [hexc])]
  rcases hinc with hinc | hinc
  · rw [if_pos hinc]
  · by_cases hie : inc.isEmpty = true
    · rw [if_pos hie]
    · rw [if_neg hie, if_pos hinc]

theorem mem_listNonIgnoredFiles {ign : List Char → Except Unit Bool}
    {inc exc : List (List Char → Bool)} :
    ∀ {entries : List (Except Unit Entry)} {out : List Nat},
      listNonIgnoredFiles ign inc exc entries = Except.ok out →
      ∀ p, p ∈ out ↔
        ∃ ent, Except.ok ent ∈ entries ∧
          processEntry ign inc exc ent = Except.ok (some p) := by
  intro entries
  induction entries with
  | nil =>
    intro out h p
    have : out = [] := by simpa [listNonIgnoredFiles] using h.symm
    subst this
    simp
  | cons e rest ih =>
    intro out h p
    cases e with
    | error e' => exact Except.noConfusion h
    | ok ent =>
      unfold listNonIgnoredFiles at h
      cases hpe : processEntry ign inc exc ent with
      | error e' =>
        rw [hpe] at h
        exact Except.noConfusion h
      | ok o =>
        rw [hpe] at h
        cases o with
        | none =>
          constructor
          · intro hp
            obtain ⟨ent', hm, hp'⟩ := (ih h p).mp hp
            exact ⟨ent', List.mem_cons_of_mem _ hm, hp'⟩
          · rintro ⟨ent', hm, hp'⟩
            rcases List.mem_cons.mp hm with heq | hm'
            · injection heq with heq
              subst heq
              rw [hpe] at hp'
              simp at hp'
            · exact (ih h p).mpr ⟨ent', hm', hp'⟩
        | some q =>
          cases hrest : listNonIgnoredFiles ign inc exc rest with
          | error e' =>
            rw [hrest] at h
            exact Except.noConfusion h
          | ok out' =>
            rw [hrest] at h
            have hout : out = q :: out' := by simpa using h.symm
            subst hout
            constructor
            · intro hp
              rcases List.mem_cons.mp hp with rfl | hp'
              · exact ⟨ent, List.mem_cons_self _ _, hpe⟩
              · obtain ⟨ent', hm, hp''⟩ := (ih hrest p).mp hp'
                exact ⟨ent', List.mem_cons_of_mem _ hm, hp''⟩
            · rintro ⟨ent', hm, hp'⟩
              rcases List.mem_cons.mp hm with heq | hm'
              · injection heq with heq
                subst heq
                rw [hpe] at hp'
                have hq : q = p := by simpa using hp'
                subst hq
                exact List.mem_cons_self _ _
              · exact List.mem_cons_of_mem _ ((ih hrest p).mpr ⟨ent', hm', hp'⟩)

/-- C2: for the dual-mode group (jsx, tsx), on a line where both `//` and
the block opener occur, the earlier byte offset wins: if `//` is strictly
earlier, line-comment rules govern the whole rest of the line (marker
presence inside the block-looking text notwithstanding); otherwise the
block opener wins and block rules with closer `*/}` apply. -/
theorem dual_mode_tiebreak (ext : String) (hx : ext = "jsx" ∨ ext = "tsx")
    (line : List Nat) (s b : Nat)
    (hs : findB (strBytes "//") line = some s)
    (hb : findB (strBytes "\x7b/*") line = some b) :
    (s < b → cleanLine ext line =
      (if containsB markerBytes (line.drop s) then (trimEnd (line.take s), true)
       else (line, false))) ∧
    (¬ s < b → cleanLine ext line =
      (match findB (strBytes "*/\x7d") (line.drop b) with
       | some endOff =>
         if containsB markerBytes
             ((line.take (b + endOff + (strBytes "*/\x7d").length)).drop b) then
           if (trim (line.drop (b + endOff + (strBytes "*/\x7d").length))).isEmpty then
             (trimEnd (line.take b), true)
           else (line.take b ++ line.drop (b + endOff + (strBytes "*/\x7d").length), true)
         else (line, false)
       | none =>
         if containsB markerBytes (line.drop b) then (trimEnd (line.take b), true)
         else (line, false))) := by
  constructor
  · intro hlt
    have hop : openerFor ext line = (some s, none) := by
      rw [openerFor_dual hx, hs, hb]
      dsimp only
      rw [if_pos hlt]
    exact cleanLine_lineCase hop
  · intro hlt
    have hop : openerFor ext line = (some b, some (strBytes "*/\x7d")) := by
      rw [openerFor_dual hx, hs, hb]
      dsimp only
      rw [if_neg hlt]
    exact cleanLine_blockCase hop

theorem dual_mode_tiebreak_witness :
    cleanLine "jsx"
        (strBytes "12345// 89" ++ strBytes "\x7b/* " ++ markerBytes ++ strBytes " */\x7d") =
      (strBytes "12345", true) := by
  have h :=
    (dual_mode_tiebreak "jsx" (Or.inl rfl)
      (strBytes "12345// 89" ++ strBytes "\x7b/* " ++ markerBytes ++ strBytes " */\x7d")
      5 10 (by decide) (by decide)).1 (by decide)
  rw [h]
  decide

/-- C3: for a block-comment language (markup group html, stylesheet group
css), when the opener occurs at `s` and a closer is found at relative
offset `endOff` on the same line, the span runs to the end of the closer;
a marker inside the span removes the span (prefix plus suffix), an
all-whitespace remaining suffix is dropped with the prefix right-trimmed
instead, and a span without marker leaves the line unchanged. -/
theorem block_closer_found_rule (ext : String) (op cl : List Nat)
    (hg : (ext = "html" ∧ op = strBytes "<!--" ∧ cl = strBytes "-->") ∨
          (ext = "css" ∧ op = strBytes "/*" ∧ cl = strBytes "*/"))
    (line : List Nat) (s endOff : Nat)
    (hs : findB op line = some s)
    (hc : findB cl (line.drop s) = some endOff) :
    cleanLine ext line =
      if containsB markerBytes ((line.take (s + endOff + cl.length)).drop s) then
        if (trim (line.drop (s + endOff + cl.length))).isEmpty then
          (trimEnd (line.take s), true)
        else (line.take s ++ line.drop (s + endOff + cl.length), true)
      else (line, false) := by
  rcases hg with ⟨rfl, rfl, rfl⟩ | ⟨rfl, rfl, rfl⟩
  · rw [cleanLine_blockCase (by rw [openerFor_html, hs]), hc]
  · rw [cleanLine_blockCase (by rw [openerFor_css, hs]), hc]

theorem block_closer_found_rule_witness :
    cleanLine "html" (strBytes "<div>  <!-- " ++ markerBytes ++ strBytes " drop --> </div>") =
      (strBytes "<div>   </div>", true) := by
  have h := block_closer_found_rule "html" (strBytes "<!--") (strBytes "-->")
    (Or.inl ⟨rfl, rfl, rfl⟩)
    (strBytes "<div>  <!-- " ++ markerBytes ++ strBytes " drop --> </div>")
    7 17 (by decide) (by decide)
  rw [h]
  decide

/-- C4: for a block-comment language, when the opener occurs at `s` but
no closer is found from there to end of line, the comment is treated as
running to end of line for marker detection only: with a marker the line
is truncated at the opener offset and right-trimmed, without one it is
unchanged; the per-line cleaning carries no state to the next line (the
embedding maps `cleanLine` over the lines independently). -/
theorem block_unterminated_rule (ext : String) (op cl : List Nat)
    (hg : (ext = "html" ∧ op = strBytes "<!--" ∧ cl = strBytes "-->") ∨
          (ext = "css" ∧ op = strBytes "/*" ∧ cl = strBytes "*/"))
    (line : List Nat) (s : Nat)
    (hs : findB op line = some s)
    (hc : findB cl (line.drop s) = none) :
    cleanLine ext line =
      if containsB markerBytes (line.drop s) then (trimEnd (line.take s), true)
      else (line, false) := by
  rcases hg with ⟨rfl, rfl, rfl⟩ | ⟨rfl, rfl, rfl⟩
  · rw [cleanLine_blockCase (by rw [openerFor_html, hs]), hc]
  · rw [cleanLine_blockCase (by rw [openerFor_css, hs]), hc]

theorem block_unterminated_rule_witness :
    cleanLine "css" (strBytes "x /* " ++ markerBytes ++ strBytes " oops") =
      (strBytes "x", true) := by
  have h := block_unterminated_rule "css" (strBytes "/*") (strBytes "*/")
    (Or.inr ⟨rfl, rfl, rfl⟩)
    (strBytes "x /* " ++ markerBytes ++ strBytes " oops")
    2 (by decide) (by decide)
  rw [h]
  decide

/-- C5: for a line-comment language (the `//` group rs, js, ts, and the
hash fallback group covering every other extension), when the token first
occurs at `s`, a marker anywhere from there to end of line truncates the
line at `s` with a right-trim, and otherwise the line is unchanged. -/
theorem line_comment_rule (ext : String) (tok : List Nat)
    (hg : ((ext = "rs" ∨ ext = "js" ∨ ext = "ts") ∧ tok = strBytes "//") ∨
          (ext ≠ "html" ∧ ext ≠ "css" ∧ ext ≠ "jsx" ∧ ext ≠ "tsx" ∧
           ext ≠ "rs" ∧ ext ≠ "js" ∧ ext ≠ "ts" ∧ tok = strBytes "#"))
    (line : List Nat) (s : Nat) (hs : findB tok line = some s) :
    cleanLine ext line =
      if containsB markerBytes (line.drop s) then (trimEnd (line.take s), true)
      else (line, false) := by
  rcases hg with ⟨hx, rfl⟩ | ⟨h1, h2, h3, h4, h5, h6, h7, rfl⟩
  · rcases hx with rfl | rfl | rfl
    · exact cleanLine_lineCase (by rw [openerFor_rs, hs])
    · exact cleanLine_lineCase (by rw [openerFor_js, hs])
    · exact cleanLine_lineCase (by rw [openerFor_ts, hs])
  · exact cleanLine_lineCase (by rw [openerFor_fallback h1 h2 h3 h4 h5 h6 h7, hs])

theorem line_comment_rule_witness :
    cleanLine "py" (strBytes "x = 1  # " ++ markerBytes ++ strBytes " remove") =
      (strBytes "x = 1", true) ∧
    cleanLine "py" (strBytes "x = 1  # keep this") =
      (strBytes "x = 1  # keep this", false) := by
  constructor
  · have h := line_comment_rule "py" (strBytes "#")
      (Or.inr ⟨by decide, by decide, by decide, by decide, by decide, by decide, by decide, rfl⟩)
      (strBytes "x = 1  # " ++ markerBytes ++ strBytes " remove") 7 (by decide)
    rw [h]
    decide
  · have h := line_comment_rule "py" (strBytes "#")
      (Or.inr ⟨by decide, by decide, by decide, by decide, by decide, by decide, by decide, rfl⟩)
      (strBytes "x = 1  # keep this") 7 (by decide)
    rw [h]
    decide

/-- C1 counterexample: for the html tag, the content holding one line
with two marker-flagged block comments is modified again by a second run
of the cleaner (the first run removes only the first comment span and
keeps the suffix), so running the cleaner twice differs from running it
once and the second run reports a modification. -/
theorem clean_twice_counterexample :
    cleanContent "html"
        ((cleanContent "html"
          (strBytes "<!--" ++ markerBytes ++ strBytes "--><!--" ++
            markerBytes ++ strBytes "-->x")).1) ≠
      ((cleanContent "html"
          (strBytes "<!--" ++ markerBytes ++ strBytes "--><!--" ++
            markerBytes ++ strBytes "-->x")).1, false) := by
  decide

/-- C1 (amended): per-line idempotence holds for every extension whose
comment profile has no block delimiter (the `//` group and the hash
fallback group, i.e. every extension other than html, css, jsx, tsx):
cleaning the cleaned line returns it unchanged with no modification
reported. -/
theorem cleanLine_idempotent_line_groups (ext : String)
    (h1 : ext ≠ "html") (h2 : ext ≠ "css") (h3 : ext ≠ "jsx") (h4 : ext ≠ "tsx")
    (line : List Nat) :
    cleanLine ext ((cleanLine ext line).1) = ((cleanLine ext line).1, false) := by
  by_cases h5 : ext = "rs"
  · subst h5
    exact lineTok_clean_idem (by decide) openerFor_rs line
  by_cases h6 : ext = "js"
  · subst h6
    exact lineTok_clean_idem (by decide) openerFor_js line
  by_cases h7 : ext = "ts"
  · subst h7
    exact lineTok_clean_idem (by decide) openerFor_ts line
  exact lineTok_clean_idem (by decide) (openerFor_fallback h1 h2 h3 h4 h5 h6 h7) line

theorem cleanLine_idempotent_line_groups_witness :
    cleanLine "py"
        ((cleanLine "py" (strBytes "x = 1  # " ++ markerBytes ++ strBytes " remove")).1) =
      ((cleanLine "py" (strBytes "x = 1  # " ++ markerBytes ++ strBytes " remove")).1, false) :=
  cleanLine_idempotent_line_groups "py" (by decide) (by decide) (by decide) (by decide) _

/-- C9: a file is written back exactly when at least one line is textually
changed by the cleaning rules: `processFile` yields `none` (no write call,
content untouched) when every cleaned line equals its original, and
otherwise yields exactly one whole-file write of the rejoined cleaned
lines. -/
theorem rewrite_iff_line_changed (ext : String) (c : List Nat) :
    processFile ext c =
      if (rustLines c).any (fun l => decide ((cleanLine ext l).1 ≠ l)) then
        some (joinNl ((rustLines c).map (fun l => (cleanLine ext l).1)))
      else none := by
  have hpt : ∀ l, (cleanLine ext l).2 = decide ((cleanLine ext l).1 ≠ l) := by
    intro l
    by_cases h : (cleanLine ext l).1 = l
    · have hf : (cleanLine ext l).2 = false := by
        rcases hsnd : (cleanLine ext l).2 with _ | _
        · rfl
        · exact absurd h ((cleanLine_flag ext l).mp hsnd)
      rw [hf, h]
      simp
    · rw [(cleanLine_flag ext l).mpr h]
      simp [h]
  have h2 : ∀ ls : List (List Nat), (ls.map (cleanLine ext)).any Prod.snd =
      ls.any (fun l => decide ((cleanLine ext l).1 ≠ l)) := by
    intro ls
    induction ls with
    | nil => rfl
    | cons a t ih => simp only [List.map_cons, List.any_cons, ih, hpt a]
  have h3 : ((rustLines c).map (cleanLine ext)).map Prod.fst =
      (rustLines c).map (fun l => (cleanLine ext l).1) := by
    rw [List.map_map]
    rfl
  show (if ((rustLines c).map (cleanLine ext)).any Prod.snd then
          some (joinNl (((rustLines c).map (cleanLine ext)).map Prod.fst))
        else none) = _
  rw [h2 (rustLines c), h3]

/-- C10: the per-line cleaner is total on every valid UTF-8 line for
every extension: with all slicing operations routed through checked
models of Rust's panicking slice accesses, the checked cleaner never
fails and agrees with the unchecked model, because every byte index used
(find results, the computed span end, the truncation points) is in
bounds and on a UTF-8 char boundary. -/
theorem cleanLineChecked_total (ext : String) (line : List Nat) (hv : ValidUtf8 line) :
    cleanLineChecked ext line = some (cleanLine ext line) := by
  have hnc := validUtf8_noCont hv
  rcases hop : openerFor ext line with ⟨copt, eopt⟩
  cases copt with
  | none =>
    rw [cleanLine_noneCase hop]
    unfold cleanLineChecked
    rw [hop]
  | some s =>
    obtain ⟨p, hpne, hph, hsw, hinfo⟩ := openerFor_some hop
    have hbs : isCharBoundaryB line s = true := boundary_of_sw hpne hph hsw
    cases eopt with
    | none =>
      rw [cleanLine_lineCase hop]
      unfold cleanLineChecked
      rw [hop]
      dsimp only
      rw [dropCk_some hbs]
      dsimp only
      by_cases hm : containsB markerBytes (line.drop s) = true
      · rw [if_pos hm, if_pos hm, takeCk_some hbs]
      · rw [if_neg hm, if_neg hm]
    | some en =>
      obtain ⟨hene, henl⟩ := hinfo en rfl
      rw [cleanLine_blockCase hop]
      unfold cleanLineChecked
      rw [hop]
      dsimp only
      rw [dropCk_some hbs]
      dsimp only
      cases hfe : findB en (line.drop s) with
      | none =>
        dsimp only
        by_cases hm : containsB markerBytes (line.drop s) = true
        · rw [if_pos hm, if_pos hm, takeCk_some hbs]
        · rw [if_neg hm, if_neg hm]
      | some off =>
        have hdd : (line.drop s).drop off = line.drop (s + off) := by
          rw [List.drop_drop]
        have hsw2 : startsWithB en (line.drop (s + off)) = true := by
          have h0 := findB_sw hfe
          rwa [hdd] at h0
        have hbe : isCharBoundaryB line (s + off + en.length) = true :=
          boundary_after_closer hnc hene henl hsw2
        dsimp only
        rw [spanCk_some (by omega) hbs hbe]
        dsimp only
        by_cases hm :
            containsB markerBytes ((line.take (s + off + en.length)).drop s) = true
        · rw [if_pos hm, if_pos hm, takeCk_some hbs, dropCk_some hbe]
        · rw [if_neg hm, if_neg hm]

theorem cleanLineChecked_total_witness :
    cleanLineChecked "html" (strBytes "<p><!-- " ++ markerBytes ++ strBytes " --></p>") =
      some (cleanLine "html" (strBytes "<p><!-- " ++ markerBytes ++ strBytes " --></p>")) :=
  cleanLineChecked_total "html"
    (strBytes "<p><!-- " ++ markerBytes ++ strBytes " --></p>")
    ⟨("<p><!-- ".data.map Char.toNat) ++ [0x203C, 0xFE0F] ++
        (" --></p>".data.map Char.toNat),
      by decide, by decide⟩

/-- C6: a file whose relative path the ignore predicate accepts as
ignored never appears in the selector's output, whatever the include and
exclude pattern sets are. -/
theorem ignored_never_selected (ign : List Char → Except Unit Bool)
    (inc exc : List (List Char → Bool)) (entries : List (Except Unit Entry))
    (out : List Nat) (p : Nat)
    (hrun : listNonIgnoredFiles ign inc exc entries = Except.ok out)
    (hig : ∀ ent r, Except.ok ent ∈ entries → ent.path = p → ent.rel = some r →
      ign r = Except.ok true) :
    p ∉ out := by
  intro hp
  obtain ⟨ent, hm, hpe⟩ := (mem_listNonIgnoredFiles hrun p).mp hp
  obtain ⟨hpath, _, r, hrel, _, higf, _⟩ := processEntry_some_facts hpe
  have hcontra := hig ent r hm hpath hrel
  rw [higf] at hcontra
  simp at hcontra

theorem ignored_never_selected_witness :
    listNonIgnoredFiles (fun r => Except.ok (r == ['b'])) [] []
        [Except.ok ⟨1, false, some ['a'], true⟩, Except.ok ⟨2, false, some ['b'], true⟩] =
      Except.ok [1] ∧
    (2 : Nat) ∉ ([1] : List Nat) := by
  refine ⟨rfl, ?_⟩
  apply ignored_never_selected (fun r => Except.ok (r == ['b'])) [] []
    [Except.ok ⟨1, false, some ['a'], true⟩, Except.ok ⟨2, false, some ['b'], true⟩]
    [1] 2 rfl
  intro ent r hm hpath hrel
  rcases List.mem_cons.mp hm with heq | hm'
  · injection heq with heq
    subst heq
    simp at hpath
  · rcases List.mem_cons.mp hm' with heq | hm''
    · injection heq with heq
      subst heq
      injection hrel with hrel
      subst hrel
      rfl
    · simp at hm''

/-- C7: a file whose forward-slash-normalized relative path matches some
exclude pattern never appears in the selector's output, even when it also
matches an include pattern. -/
theorem excluded_never_selected (ign : List Char → Except Unit Bool)
    (inc exc : List (List Char → Bool)) (entries : List (Except Unit Entry))
    (out : List Nat) (p : Nat)
    (hrun : listNonIgnoredFiles ign inc exc entries = Except.ok out)
    (hex : ∀ ent r, Except.ok ent ∈ entries → ent.path = p → ent.rel = some r →
      ∃ pat ∈ exc, pat (normalizeSlashes r) = true) :
    p ∉ out := by
  intro hp
  obtain ⟨ent, hm, hpe⟩ := (mem_listNonIgnoredFiles hrun p).mp hp
  obtain ⟨hpath, _, r, hrel, _, _, _, hexcf, _⟩ := processEntry_some_facts hpe
  obtain ⟨pat, hpm, hpt⟩ := hex ent r hm hpath hrel
  have hany : exc.any (fun q => q (normalizeSlashes r)) = true :=
    List.any_eq_true.mpr ⟨pat, hpm, hpt⟩
  rw [hexcf] at hany
  cases hany

theorem excluded_never_selected_witness :
    listNonIgnoredFiles (fun _ => Except.ok false) [fun _ => true] [fun r => r == ['b']]
        [Except.ok ⟨1, false, some ['a'], true⟩, Except.ok ⟨2, false, some ['b'], true⟩] =
      Except.ok [1] ∧
    (2 : Nat) ∉ ([1] : List Nat) := by
  refine ⟨rfl, ?_⟩
  apply excluded_never_selected (fun _ => Except.ok false) [fun _ => true]
    [fun r => r == ['b']]
    [Except.ok ⟨1, false, some ['a'], true⟩, Except.ok ⟨2, false, some ['b'], true⟩]
    [1] 2 rfl
  intro ent r hm hpath hrel
  rcases List.mem_cons.mp hm with heq | hm'
  · injection heq with heq
    subst heq
    simp at hpath
  · rcases List.mem_cons.mp hm' with heq | hm''
    · injection heq with heq
      subst heq
      injection hrel with hrel
      subst hrel
      exact ⟨fun r => r == ['b'], List.mem_cons_self _ _, rfl⟩
    · simp at hm''

/-- C8: with an empty include set the selector takes every eligible file
(regular, non-ignored, non-excluded) unconditionally; with a non-empty
include set a file is selected exactly when it is eligible and its
normalized relative path matches at least one include pattern. -/
theorem include_selection_iff (ign : List Char → Except Unit Bool)
    (inc exc : List (List Char → Bool)) (entries : List (Except Unit Entry))
    (out : List Nat) (p : Nat)
    (hrun : listNonIgnoredFiles ign inc exc entries = Except.ok out) :
    (inc = [] → (p ∈ out ↔ ∃ ent, Except.ok ent ∈ entries ∧ ent.path = p ∧
      eligible ign exc ent)) ∧
    (inc ≠ [] → (p ∈ out ↔ ∃ ent r, Except.ok ent ∈ entries ∧ ent.path = p ∧
      eligible ign exc ent ∧ ent.rel = some r ∧
      ∃ pat ∈ inc, pat (normalizeSlashes r) = true)) := by
  have hmem := mem_listNonIgnoredFiles hrun p
  constructor
  · intro hinc0
    subst hinc0
    rw [hmem]
    constructor
    · rintro ⟨ent, hm, hpe⟩
      obtain ⟨hpath, hd, r, hrel, hne, hig, hutf, hexc, _⟩ := processEntry_some_facts hpe
      refine ⟨ent, hm, hpath, hd, r, hrel, hne, hig, hutf, ?_⟩
      intro pat hpmem
      simpa using List.any_eq_false.mp hexc pat hpmem
    · rintro ⟨ent, hm, hpath, hd, r, hrel, hne, hig, hutf, hexall⟩
      have hexc : exc.any (fun pat => pat (normalizeSlashes r)) = false := by
        rw [List.any_eq_false]
        intro pat hpmem
        simp [hexall pat hpmem]
      have hmk : processEntry ign [] exc ent = Except.ok (some ent.path) :=
        processEntry_mk hd hrel hne hig hutf hexc (Or.inl rfl)
      rw [hpath] at hmk
      exact ⟨ent, hm, hmk⟩
  · intro hincne
    rw [hmem]
    constructor
    · rintro ⟨ent, hm, hpe⟩
      obtain ⟨hpath, hd, r, hrel, hne, hig, hutf, hexc, hincl⟩ := processEntry_some_facts hpe
      have hexall : ∀ pat ∈ exc, pat (normalizeSlashes r) = false := by
        intro pat hpmem
        simpa using List.any_eq_false.mp hexc pat hpmem
      rcases hincl with hie | hia
      · exact absurd (List.isEmpty_iff.mp hie) hincne
      · obtain ⟨pat, hpm, hpt⟩ := List.any_eq_true.mp hia
        exact ⟨ent, r, hm, hpath, ⟨hd, r, hrel, hne, hig, hutf, hexall⟩, hrel, pat, hpm, hpt⟩
    · rintro ⟨ent, r, hm, hpath, ⟨hd, r', hrel', hne', hig', hutf', hexall'⟩, hrel, pat, hpm, hpt⟩
      rw [hrel] at hrel'
      injection hrel' with hrr
      subst hrr
      have hexc : exc.any (fun q => q (normalizeSlashes r)) = false := by
        rw [List.any_eq_false]
        intro q hqmem
        simp [hexall' q hqmem]
      have hmk := processEntry_mk hd hrel hne' hig' hutf' hexc
        (Or.inr (List.any_eq_true.mpr ⟨pat, hpm, hpt⟩))
      rw [hpath] at hmk
      exact ⟨ent, hm, hmk⟩

theorem include_selection_iff_witness :
    listNonIgnoredFiles (fun _ => Except.ok false) [fun r => r == ['a']] []
        [Except.ok ⟨1, false, some ['a'], true⟩, Except.ok ⟨2, false, some ['b'], true⟩] =
      Except.ok [1] ∧
    (1 : Nat) ∈ ([1] : List Nat) := by
  refine ⟨rfl, ?_⟩
  have h := (include_selection_iff (fun _ => Except.ok false) [fun r => r == ['a']] []
    [Except.ok ⟨1, false, some ['a'], true⟩, Except.ok ⟨2, false, some ['b'], true⟩]
    [1] 1 rfl).2 (by simp)
  exact h.mpr ⟨⟨1, false, some ['a'], true⟩, ['a'], List.mem_cons_self _ _, rfl,
    ⟨rfl, ['a'], rfl, by simp, rfl, rfl, by simp⟩, rfl,
    ⟨fun r => r == ['a'], List.mem_cons_self _ _, rfl⟩⟩

end ER
